import Mathlib

/-!
Shallow embedding of the fs-guard repository (src/sha256.rs, src/merkle.rs,
src/utility.rs) in Lean 4, with theorems settling the specification claims.

Bytes are modelled as `Nat` (values 0..255), byte vectors (`Vec<u8>`, `&[u8]`)
as `List Nat`, 32-bit words as `Nat` with explicit reduction modulo 2^32.
A hasher (the `HashFunction` trait) is a pure function `List Nat → List Nat`.
-/

namespace FsGuard

/-- Lexicographic comparison of byte vectors, the embedding of Rust's
`Ord for Vec<u8>` used by `left.hash < right.hash` in merkle.rs:
element-wise comparison, with a strict prefix smaller than the longer list. -/
def bytesLt : List Nat → List Nat → Bool
  | [], [] => false
  | [], _ :: _ => true
  | _ :: _, [] => false
  | a :: as, b :: bs => if a < b then true else if b < a then false else bytesLt as bs

/-- The value `canonicalConcat a b` is the concatenation of `a` and `b` in canonical
(lexicographically sorted) order: the embedding of the `combined_hash`
computation in `MerkleTree::build` (merkle.rs lines 57-61),
`generate_proof` (lines 130-134) and `verify_proof` (lines 181-185):
`if a < b { [a,b].concat() } else { [b,a].concat() }`. -/
def canonicalConcat (a b : List Nat) : List Nat :=
  if bytesLt a b then a ++ b else b ++ a

/-- A hasher: the embedding of the `HashFunction` trait (merkle.rs lines 6-8),
a pure function from byte input to digest. -/
def Hasher : Type := List Nat → List Nat

/-- One parent-digest computation: hash the canonical concatenation of the
two child digests (merkle.rs lines 57-63). -/
def combineHash (hasher : Hasher) (a b : List Nat) : List Nat :=
  hasher (canonicalConcat a b)

/-! ## SHA-256 engine (src/sha256.rs) -/

/-- Wraparound 32-bit addition, the embedding of `u32::wrapping_add`. -/
def add32 (a b : Nat) : Nat := (a + b) % 4294967296

/-- Rightward 32-bit rotation, the embedding of `u32::rotate_right(n)`. -/
def rotr32 (n x : Nat) : Nat :=
  ((x >>> n) ||| (x <<< (32 - n))) % 4294967296

/-- Bitwise exclusive or on 32-bit words (operands already below 2^32). -/
def xor32 (a b : Nat) : Nat := a ^^^ b

/-- Big-endian byte serialization of `x` into `n` bytes: embedding of
`u64::to_be_bytes` (n = 8) and `u32::to_be_bytes` (n = 4). -/
def toBytesBE : Nat → Nat → List Nat
  | 0, _ => []
  | n + 1, x => toBytesBE n (x >>> 8) ++ [x % 256]

/-- Big-endian 32-bit word from four bytes: embedding of `u32::from_be_bytes`. -/
def fromBytesBE4 (b0 b1 b2 b3 : Nat) : Nat :=
  ((b0 * 256 + b1) * 256 + b2) * 256 + b3

/-- Fuel-driven form of the zero-padding loop of `pad_message`
(sha256.rs lines 56-58): `while (padded.len() * 8) % 512 != 448 { padded.push(0); }`.
The loop provably terminates within 64 iterations (at most 63 zero bytes are
appended), so running it with fuel 64 is exact; `padZerosLoop_eq` below gives
the closed form. -/
def padZerosGo : Nat → List Nat → List Nat
  | 0, l => l
  | fuel + 1, l => if l.length % 64 = 56 then l else padZerosGo fuel (l ++ [0])

/-- The zero-padding loop of `pad_message` (sha256.rs lines 56-58). -/
def padZerosLoop (l : List Nat) : List Nat := padZerosGo 64 l

/-- The embedding of `pad_message` (sha256.rs lines 49-65): append `0x80`,
zero bytes until the length is 56 mod 64, then the bit length of the
original message as a 64-bit big-endian integer (`as u64` wraps mod 2^64). -/
def pad_message (message : List Nat) : List Nat :=
  padZerosLoop (message ++ [128]) ++ toBytesBE 8 ((message.length * 8) % 18446744073709551616)

/-- The function `σ0` of the message schedule (sha256.rs line 89). -/
def smallSigma0 (x : Nat) : Nat := xor32 (xor32 (rotr32 7 x) (rotr32 18 x)) (x >>> 3)

/-- The function `σ1` of the message schedule (sha256.rs line 90). -/
def smallSigma1 (x : Nat) : Nat := xor32 (xor32 (rotr32 17 x) (rotr32 19 x)) (x >>> 10)

/-- The extension loop of `message_schedule` (sha256.rs lines 88-95),
unrolled as repeated appending: with `w` the words so far (length `i`),
the next word is `w[i-16] + σ0(w[i-15]) + w[i-7] + σ1(w[i-2])` under
32-bit wraparound. `fuel` counts the remaining iterations (48 at the start). -/
def extendSchedule : Nat → List Nat → List Nat
  | 0, w => w
  | fuel + 1, w =>
    let i := w.length
    let s0 := smallSigma0 (w.getD (i - 15) 0)
    let s1 := smallSigma1 (w.getD (i - 2) 0)
    let word := add32 (add32 (add32 (w.getD (i - 16) 0) s0) (w.getD (i - 7) 0)) s1
    extendSchedule fuel (w ++ [word])

/-- Group a 64-byte block into its first 16 big-endian 32-bit words
(sha256.rs lines 83-85). -/
def firstSixteen : List Nat → List Nat
  | b0 :: b1 :: b2 :: b3 :: rest => fromBytesBE4 b0 b1 b2 b3 :: firstSixteen rest
  | _ => []

/-- The embedding of `message_schedule` (sha256.rs lines 79-98). -/
def message_schedule (block : List Nat) : List Nat :=
  extendSchedule 48 (firstSixteen block)

/-- The SHA-256 round constants `K` (sha256.rs lines 111-128), written here in
decimal (the source writes them in hexadecimal; the values are identical). -/
def K : List Nat :=
  [1116352408, 1899447441, 3049323471, 3921009573, 961987163,
   1508970993, 2453635748, 2870763221, 3624381080, 310598401,
   607225278, 1426881987, 1925078388, 2162078206, 2614888103,
   3248222580, 3835390401, 4022224774, 264347078, 604807628,
   770255983, 1249150122, 1555081692, 1996064986, 2554220882,
   2821834349, 2952996808, 3210313671, 3336571891, 3584528711,
   113926993, 338241895, 666307205, 773529912, 1294757372,
   1396182291, 1695183700, 1986661051, 2177026350, 2456956037,
   2730485921, 2820302411, 3259730800, 3345764771, 3516065817,
   3600352804, 4094571909, 275423344, 430227734, 506948616,
   659060556, 883997877, 958139571, 1322822218, 1537002063,
   1747873779, 1955562222, 2024104815, 2227730452, 2361852424,
   2428436474, 2756734187, 3204031479, 3329325298]

/-- The eight working registers `a..h` of the compression function. -/
structure Regs where
  a : Nat
  b : Nat
  c : Nat
  d : Nat
  e : Nat
  f : Nat
  g : Nat
  h : Nat

/-- One round of the compression loop (sha256.rs lines 142-161), with `k`
the round constant and `w` the scheduled word for this round. -/
def round (r : Regs) (k w : Nat) : Regs :=
  let s1 := xor32 (xor32 (rotr32 6 r.e) (rotr32 11 r.e)) (rotr32 25 r.e)
  let ch := xor32 (Nat.land r.e r.f) (Nat.land (4294967295 - r.e) r.g)
  let temp1 := add32 (add32 (add32 (add32 r.h s1) ch) k) w
  let s0 := xor32 (xor32 (rotr32 2 r.a) (rotr32 13 r.a)) (rotr32 22 r.a)
  let maj := xor32 (xor32 (Nat.land r.a r.b) (Nat.land r.a r.c)) (Nat.land r.b r.c)
  let temp2 := add32 s0 maj
  { a := add32 temp1 temp2, b := r.a, c := r.b, d := r.c,
    e := add32 r.d temp1, f := r.e, g := r.f, h := r.g }

/-- The embedding of `compress` (sha256.rs lines 109-172): the hash state is a
list of eight 32-bit words; 64 rounds driven by `K` zipped with the message
schedule, then the post-round registers are added back into the state. -/
def compress (hs : List Nat) (block : List Nat) : List Nat :=
  let w := message_schedule block
  let init : Regs :=
    { a := hs.getD 0 0, b := hs.getD 1 0, c := hs.getD 2 0, d := hs.getD 3 0,
      e := hs.getD 4 0, f := hs.getD 5 0, g := hs.getD 6 0, h := hs.getD 7 0 }
  let r := (K.zip w).foldl (fun r kw => round r kw.1 kw.2) init
  [add32 (hs.getD 0 0) r.a, add32 (hs.getD 1 0) r.b,
   add32 (hs.getD 2 0) r.c, add32 (hs.getD 3 0) r.d,
   add32 (hs.getD 4 0) r.e, add32 (hs.getD 5 0) r.f,
   add32 (hs.getD 6 0) r.g, add32 (hs.getD 7 0) r.h]

/-- Fuel-driven 64-byte chunking; each step consumes a non-empty list, so fuel
equal to the list length is always sufficient. -/
def chunks64Go : Nat → List Nat → List (List Nat)
  | _, [] => []
  | 0, _ :: _ => []
  | fuel + 1, x :: xs => ((x :: xs).take 64) :: chunks64Go fuel ((x :: xs).drop 64)

/-- Split the padded message into 64-byte chunks, the embedding of
`padded.chunks(64)` (sha256.rs line 24). -/
def chunks64 (l : List Nat) : List (List Nat) := chunks64Go l.length l

/-- The initial SHA-256 hash state (sha256.rs lines 15-18), in decimal (the
source writes the same eight values in hexadecimal). -/
def initH : List Nat :=
  [1779033703, 3144134277, 1013904242, 2773480762,
   1359893119, 2600822924, 528734635, 1541459225]

/-- The embedding of `sha256` (sha256.rs lines 13-35): pad, compress each
64-byte block, then serialize the eight state words big-endian. -/
def sha256 (input : List Nat) : List Nat :=
  let hs := (chunks64 (pad_message input)).foldl compress initH
  hs.flatMap (toBytesBE 4)

/-- The embedding of `bytes_to_hex` (utility.rs lines 10-12): two lowercase
hex digits per byte. -/
def hexDigit (n : Nat) : Char :=
  if n < 10 then Char.ofNat (48 + n) else Char.ofNat (87 + n)

/-- Hex rendering of a byte list as a list of characters. -/
def bytes_to_hex (bytes : List Nat) : List Char :=
  bytes.flatMap (fun byte => [hexDigit (byte / 16 % 16), hexDigit (byte % 16)])

/-! ## Merkle tree (src/merkle.rs) -/

/-- The embedding of `MerkleNode` (merkle.rs lines 11-18): a hash plus
optionally owned children. -/
inductive MerkleNode where
  | mk (hash : List Nat) (left : Option MerkleNode) (right : Option MerkleNode)

/-- Field accessor for the node's hash. -/
def MerkleNode.hash : MerkleNode → List Nat
  | .mk h _ _ => h

/-- The embedding of `MerkleTree<H>` (merkle.rs lines 21-25). -/
structure MerkleTree where
  root : Option MerkleNode
  hasher : Hasher
  leaves : List MerkleNode

/-- The embedding of `MerkleTree::new` (merkle.rs lines 29-31). -/
def MerkleTree.new (hasher : Hasher) : MerkleTree :=
  { root := none, hasher := hasher, leaves := [] }

/-- One pass of the pairing loop in `build` (merkle.rs lines 49-70): nodes are
taken two at a time in order (`step_by(2)`); a trailing single node is paired
with itself; each pair's parent hashes the canonical concatenation of the two
child hashes and owns both children. -/
def pairLevel (hasher : Hasher) : List MerkleNode → List MerkleNode
  | [] => []
  | [x] => .mk (combineHash hasher x.hash x.hash) (some x) (some x) :: []
  | x :: y :: rest =>
    .mk (combineHash hasher x.hash y.hash) (some x) (some y) :: pairLevel hasher rest

/-- Fuel-driven form of the `while nodes.len() > 1` loop of `build`
(merkle.rs lines 46-73). Each pass at least halves the node count, so fuel
equal to the initial node count is always sufficient (`buildGo_fuel` below). -/
def buildGo (hasher : Hasher) : Nat → List MerkleNode → List MerkleNode
  | 0, nodes => nodes
  | fuel + 1, nodes =>
    if nodes.length ≤ 1 then nodes else buildGo hasher fuel (pairLevel hasher nodes)

/-- The `while nodes.len() > 1` loop of `build` (merkle.rs lines 46-73). -/
def buildLoop (hasher : Hasher) (nodes : List MerkleNode) : List MerkleNode :=
  buildGo hasher nodes.length nodes

/-- The embedding of `MerkleTree::build` (merkle.rs lines 34-76): hash each
block into a leaf, repeatedly pair levels until at most one node remains, and
store that node (if any) as the root. -/
def MerkleTree.build (t : MerkleTree) (data_blocks : List (List Nat)) : MerkleTree :=
  let leaves := data_blocks.map (fun data => MerkleNode.mk (t.hasher data) none none)
  { root := (buildLoop t.hasher leaves).head?, hasher := t.hasher, leaves := leaves }

/-- The embedding of `MerkleTree::root_hash` (merkle.rs lines 79-81). -/
def MerkleTree.root_hash (t : MerkleTree) : Option (List Nat) :=
  t.root.map MerkleNode.hash

/-- One pass of the pairing loop in `generate_proof` (merkle.rs lines 105-147)
restricted to the hashes it produces; identical pairing to `build` (the nodes
pushed there carry no children, which only the hash-irrelevant fields differ
in). -/
def pairHashes (hasher : Hasher) : List (List Nat) → List (List Nat)
  | [] => []
  | [x] => combineHash hasher x x :: []
  | x :: y :: rest => combineHash hasher x y :: pairHashes hasher rest

/-- The proof entry pushed at one level of `generate_proof`
(merkle.rs lines 117-128): in the pair `(i, i+1)` containing `current_index`,
push the right node's hash when `i == current_index` (where the right node is
`nodes[i+1]` if it exists and otherwise the self-paired `nodes[i]`), and the
left node's hash `nodes[i-1]` when `i + 1 == current_index`. -/
def levelEntry (nodes : List (List Nat)) (idx : Nat) : List Nat :=
  if idx % 2 = 0 then
    if idx + 1 < nodes.length then nodes.getD (idx + 1) [] else nodes.getD idx []
  else nodes.getD (idx - 1) []

/-- The `while nodes.len() > 1` loop of `generate_proof`
(merkle.rs lines 102-150): at each level exactly one entry is pushed — the one
for the pair containing `current_index` — and `current_index` is halved. -/
def proofGo (hasher : Hasher) : Nat → List (List Nat) → Nat → List (List Nat)
  | 0, _, _ => []
  | fuel + 1, nodes, idx =>
    if nodes.length ≤ 1 then []
    else levelEntry nodes idx :: proofGo hasher fuel (pairHashes hasher nodes) (idx / 2)

/-- The `while nodes.len() > 1` loop of `generate_proof` with fuel equal to
the initial node count (always sufficient, as for `buildGo`). -/
def proofLoop (hasher : Hasher) (nodes : List (List Nat)) (idx : Nat) : List (List Nat) :=
  proofGo hasher nodes.length nodes idx

/-- The embedding of `MerkleTree::generate_proof` (merkle.rs lines 84-153):
`None` when the index is at or beyond the leaf count, otherwise the sibling
hashes collected level by level. -/
def MerkleTree.generate_proof (t : MerkleTree) (index : Nat) : Option (List (List Nat)) :=
  if t.leaves.length ≤ index then none
  else some (proofLoop t.hasher (t.leaves.map MerkleNode.hash) index)

/-- The embedding of `MerkleTree::verify_proof` (merkle.rs lines 156-198,
release path lines 177-189): fold the proof entries over the leaf's hash with
the canonical combination, then compare with the expected root. -/
def MerkleTree.verify_proof (t : MerkleTree) (leaf : List Nat)
    (proof : List (List Nat)) (expected_root : List Nat) : Bool :=
  let final := proof.foldl (fun hash sibling_hash => combineHash t.hasher hash sibling_hash)
    (t.hasher leaf)
  decide (final = expected_root)

/-- State-passing form of the `&self` method `verify_proof`: the receiver is
borrowed immutably, so the call returns the tree unchanged next to the
boolean. -/
def MerkleTree.verify_proofCall (t : MerkleTree) (leaf : List Nat)
    (proof : List (List Nat)) (expected_root : List Nat) : Bool × MerkleTree :=
  (t.verify_proof leaf proof expected_root, t)

/-! ## Auxiliary definitions for the verification -/

/-- The build loop restricted to the hashes it produces: used to relate the
node-level loop of `build` to the hash-level loop of `generate_proof`. -/
def buildHashGo (hasher : Hasher) : Nat → List (List Nat) → List (List Nat)
  | 0, ns => ns
  | fuel + 1, ns =>
    if ns.length ≤ 1 then ns else buildHashGo hasher fuel (pairHashes hasher ns)

/-- The sibling rule exactly as the spec words it: the sibling of the current
node is at `index + 1` for an even index, at `index - 1` for an odd index, and
is the node itself when it is the last node of an odd-sized level. -/
def specEntry (nodes : List (List Nat)) (idx : Nat) : List Nat :=
  if idx = nodes.length - 1 ∧ nodes.length % 2 = 1 then nodes.getD idx []
  else if idx % 2 = 0 then nodes.getD (idx + 1) [] else nodes.getD (idx - 1) []

/-- The proof sequence as the spec words it: one sibling entry per level in
leaf-to-root order, levels obtained by the same pairing rule as `build`, the
index halved between levels. -/
def specSiblingsGo (hasher : Hasher) : Nat → List (List Nat) → Nat → List (List Nat)
  | 0, _, _ => []
  | fuel + 1, nodes, idx =>
    if nodes.length ≤ 1 then []
    else specEntry nodes idx :: specSiblingsGo hasher fuel (pairHashes hasher nodes) (idx / 2)

/-- Spec-side description of the proof returned for an in-range index. -/
def specSiblings (hasher : Hasher) (nodes : List (List Nat)) (idx : Nat) : List (List Nat) :=
  specSiblingsGo hasher nodes.length nodes idx

/-- Byte content of the literal `b"block1"`. -/
def block1 : List Nat := [98, 108, 111, 99, 107, 49]

/-- Byte content of the literal `b"block2"`. -/
def block2 : List Nat := [98, 108, 111, 99, 107, 50]

/-- Byte content of the literal `b"block3"`. -/
def block3 : List Nat := [98, 108, 111, 99, 107, 51]

/-- Byte content of the literal `b"block4"`. -/
def block4 : List Nat := [98, 108, 111, 99, 107, 52]

/-- The concrete scenario tree built over the four literal blocks with the
SHA-256 hasher. -/
def scenarioTree : MerkleTree :=
  (MerkleTree.new sha256).build [block1, block2, block3, block4]

/-- Level-1 digest over the first two leaves, per the spec's description. -/
def level1A : List Nat := sha256 (canonicalConcat (sha256 block1) (sha256 block2))

/-- Level-1 digest over the last two leaves, per the spec's description. -/
def level1B : List Nat := sha256 (canonicalConcat (sha256 block3) (sha256 block4))

/-- Root digest of the concrete scenario, per the spec's description. -/
def scenarioRoot : List Nat := sha256 (canonicalConcat level1A level1B)

/-! ## Byte-order lemmas -/

theorem bytesLt_asymm : ∀ a b : List Nat, bytesLt a b = true → bytesLt b a = false := by
  intro a
  induction a with
  | nil => intro b _; cases b <;> rfl
  | cons x as ih =>
    intro b hab
    cases b with
    | nil => simp [bytesLt] at hab
    | cons y bs =>
      simp only [bytesLt] at hab ⊢
      rcases Nat.lt_trichotomy x y with h | h | h
      · simp [h, Nat.lt_asymm h]
      · subst h
        simp only [Nat.lt_irrefl, if_false] at hab ⊢
        exact ih bs hab
      · simp [h, Nat.lt_asymm h] at hab

theorem bytesLt_total_eq : ∀ a b : List Nat,
    bytesLt a b = false → bytesLt b a = false → a = b := by
  intro a
  induction a with
  | nil =>
    intro b hab _
    cases b with
    | nil => rfl
    | cons y bs => simp [bytesLt] at hab
  | cons x as ih =>
    intro b hab hba
    cases b with
    | nil => simp [bytesLt] at hba
    | cons y bs =>
      simp only [bytesLt] at hab hba
      rcases Nat.lt_trichotomy x y with h | h | h
      · simp [h] at hab
      · subst h
        simp only [Nat.lt_irrefl, if_false] at hab hba
        exact congrArg (x :: ·) (ih bs hab hba)
      · simp [h] at hba

theorem canonicalConcat_comm (a b : List Nat) :
    canonicalConcat a b = canonicalConcat b a := by
  unfold canonicalConcat
  rcases hab : bytesLt a b with _ | _
  · rcases hba : bytesLt b a with _ | _
    · rw [bytesLt_total_eq a b hab hba]
    · simp
  · rw [bytesLt_asymm a b hab]; simp

theorem combineHash_comm (hasher : Hasher) (a b : List Nat) :
    combineHash hasher a b = combineHash hasher b a := by
  unfold combineHash
  rw [canonicalConcat_comm]

/-! ## Level-pairing lemmas -/

theorem pairHashes_length (hasher : Hasher) :
    ∀ ns : List (List Nat), (pairHashes hasher ns).length = (ns.length + 1) / 2 := by
  intro ns
  induction ns using pairHashes.induct hasher with
  | case1 => rfl
  | case2 x => simp [pairHashes]
  | case3 x y rest ih =>
    simp only [pairHashes, List.length_cons, ih]
    omega

theorem pairLevel_map (hasher : Hasher) :
    ∀ ns : List MerkleNode,
      (pairLevel hasher ns).map MerkleNode.hash = pairHashes hasher (ns.map MerkleNode.hash) := by
  intro ns
  induction ns using pairLevel.induct hasher with
  | case1 => rfl
  | case2 x => rfl
  | case3 x y rest ih =>
    simp only [pairLevel, List.map_cons, pairHashes, MerkleNode.hash, ih]

theorem buildGo_map (hasher : Hasher) :
    ∀ (fuel : Nat) (ns : List MerkleNode),
      (buildGo hasher fuel ns).map MerkleNode.hash
        = buildHashGo hasher fuel (ns.map MerkleNode.hash) := by
  intro fuel
  induction fuel with
  | zero => intro ns; rfl
  | succ f ih =>
    intro ns
    simp only [buildGo, buildHashGo, List.length_map]
    by_cases h : ns.length ≤ 1
    · simp [h]
    · simp only [h, if_false, ih, pairLevel_map]

theorem buildHashGo_ne_nil (hasher : Hasher) :
    ∀ (fuel : Nat) (ns : List (List Nat)), ns ≠ [] → buildHashGo hasher fuel ns ≠ [] := by
  intro fuel
  induction fuel with
  | zero => intro ns h; exact h
  | succ f ih =>
    intro ns h
    simp only [buildHashGo]
    by_cases hl : ns.length ≤ 1
    · simp [hl, h]
    · simp only [hl, if_false]
      apply ih
      have := pairHashes_length hasher ns
      intro hcon
      rw [hcon] at this
      simp at this
      omega

theorem levelEntry_shift (x y : List Nat) (rest : List (List Nat)) (k : Nat) :
    levelEntry (x :: y :: rest) (k + 2) = levelEntry rest k := by
  unfold levelEntry
  have hmod : (k + 2) % 2 = k % 2 := by omega
  rw [hmod]
  by_cases hp : k % 2 = 0
  · simp only [hp, if_true, List.length_cons]
    by_cases hk : k + 1 < rest.length
    · have : k + 2 + 1 < rest.length + 1 + 1 := by omega
      simp [hk, this, List.getD]
    · have : ¬ (k + 2 + 1 < rest.length + 1 + 1) := by omega
      simp [hk, this, List.getD]
  · simp only [hp, if_false]
    have : k + 2 - 1 = (k - 1) + 2 := by omega
    simp [this, List.getD]

theorem pair_getD (hasher : Hasher) :
    ∀ (ns : List (List Nat)) (idx : Nat), idx < ns.length →
      (pairHashes hasher ns).getD (idx / 2) []
        = combineHash hasher (ns.getD idx []) (levelEntry ns idx) := by
  intro ns
  induction ns using pairHashes.induct hasher with
  | case1 => intro idx h; simp at h
  | case2 x =>
    intro idx h
    simp only [List.length_singleton] at h
    interval_cases idx
    rw [show (0 : Nat) / 2 = 0 from by norm_num]
    simp [pairHashes, levelEntry, List.getD]
  | case3 x y rest ih =>
    intro idx h
    match idx with
    | 0 =>
      rw [show (0 : Nat) / 2 = 0 from by norm_num]
      simp [pairHashes, levelEntry, List.getD]
    | 1 =>
      rw [show (1 : Nat) / 2 = 0 from by norm_num]
      simp only [pairHashes, levelEntry, List.length_cons, List.getD_cons_zero,
        List.getD_cons_succ]
      rw [if_neg (by norm_num)]
      exact combineHash_comm hasher x y
    | k + 2 =>
      have hdiv : (k + 2) / 2 = k / 2 + 1 := by omega
      simp only [pairHashes, hdiv, List.getD_cons_succ, levelEntry_shift]
      have hk : k < rest.length := by
        simp only [List.length_cons] at h
        omega
      simpa [List.getD] using ih k hk

theorem head?_of_ne_nil (l : List (List Nat)) (h : l ≠ []) : l.head? = some (l.headD []) := by
  cases l with
  | nil => exact absurd rfl h
  | cons x xs => rfl

theorem getD_map_lt (f : List Nat → List Nat) :
    ∀ (l : List (List Nat)) (i : Nat), i < l.length →
      (l.map f).getD i [] = f (l.getD i []) := by
  intro l
  induction l with
  | nil => intro i h; simp at h
  | cons x xs ih =>
    intro i h
    cases i with
    | zero => rfl
    | succ j =>
      simp only [List.map_cons, List.getD_cons_succ]
      exact ih j (by simpa using Nat.lt_of_succ_lt_succ h)

theorem proofGo_build (hasher : Hasher) :
    ∀ (fuel : Nat) (ns : List (List Nat)) (idx : Nat),
      ns.length ≤ fuel → idx < ns.length →
      (proofGo hasher fuel ns idx).foldl
          (fun hash sibling_hash => combineHash hasher hash sibling_hash) (ns.getD idx [])
        = (buildHashGo hasher fuel ns).headD [] := by
  intro fuel
  induction fuel with
  | zero =>
    intro ns idx hf hi
    omega
  | succ f ih =>
    intro ns idx hf hi
    by_cases hl : ns.length ≤ 1
    · have hidx : idx = 0 := by omega
      subst hidx
      cases ns with
      | nil => simp at hi
      | cons x xs =>
        have hxs : xs = [] := by
          cases xs with
          | nil => rfl
          | cons y ys => simp at hl
        subst hxs
        simp [proofGo, buildHashGo]
    · simp only [proofGo, buildHashGo, if_neg hl, List.foldl_cons]
      rw [← pair_getD hasher ns idx hi]
      have hplen := pairHashes_length hasher ns
      exact ih (pairHashes hasher ns) (idx / 2) (by omega) (by omega)

/-- C1: for every non-empty block sequence and every valid leaf index `i`,
after `build(blocks)` with any pure hasher, `generate_proof(i)` and
`root_hash()` are present and `verify_proof(blocks[i], proof, root)` returns
`true`; odd-sized levels (where the last node is paired with itself) are
covered since the blocks are arbitrary. -/
theorem merkle_round_trip (t : MerkleTree) (blocks : List (List Nat)) (i : Nat)
    (hne : blocks ≠ []) (hi : i < blocks.length) :
    ∃ proof root,
      (t.build blocks).generate_proof i = some proof ∧
      (t.build blocks).root_hash = some root ∧
      (t.build blocks).verify_proof (blocks.getD i []) proof root = true := by
  have hmap : ((blocks.map fun data => MerkleNode.mk (t.hasher data) none none).map
      MerkleNode.hash) = blocks.map t.hasher := by
    simp [List.map_map, Function.comp, MerkleNode.hash]
  have hlen : (blocks.map fun data => MerkleNode.mk (t.hasher data) none none).length
      = blocks.length := by simp
  refine ⟨proofLoop t.hasher (blocks.map t.hasher) i,
    (buildHashGo t.hasher blocks.length (blocks.map t.hasher)).headD [], ?_, ?_, ?_⟩
  · simp only [MerkleTree.build, MerkleTree.generate_proof, hlen, hmap]
    rw [if_neg (by omega)]
  · simp only [MerkleTree.build, MerkleTree.root_hash, buildLoop]
    rw [← List.head?_map, buildGo_map, hmap, hlen]
    rw [head?_of_ne_nil]
    apply buildHashGo_ne_nil
    simpa using hne
  · simp only [MerkleTree.build, MerkleTree.verify_proof, proofLoop, decide_eq_true_eq]
    have hstart : t.hasher (blocks.getD i []) = (blocks.map t.hasher).getD i [] :=
      (getD_map_lt t.hasher blocks i hi).symm
    have hlen2 : (blocks.map t.hasher).length = blocks.length := by simp
    rw [hstart, hlen2]
    exact proofGo_build t.hasher blocks.length (blocks.map t.hasher) i
      (by simp) (by simpa using hi)

/-- Witness for C1 at a concrete three-block input (odd leaf count) with the
SHA-256 hasher. -/
theorem merkle_round_trip_witness :
    ∃ proof root,
      ((MerkleTree.new sha256).build [[0], [1], [2]]).generate_proof 1 = some proof ∧
      ((MerkleTree.new sha256).build [[0], [1], [2]]).root_hash = some root ∧
      ((MerkleTree.new sha256).build [[0], [1], [2]]).verify_proof
        ([[0], [1], [2]].getD 1 []) proof root = true :=
  merkle_round_trip (MerkleTree.new sha256) [[0], [1], [2]] 1
    (by decide) (by decide)

/-- C4: for every hasher and every pair of digests, hashing the canonical
(lexicographically sorted) concatenation is commutative, so the combination
used by `build` and by `verify_proof` agrees regardless of which side a
sibling was on. -/
theorem pair_combination_commutative (hasher : Hasher) (a b : List Nat) :
    hasher (canonicalConcat a b) = hasher (canonicalConcat b a) ∧
    combineHash hasher a b = combineHash hasher b a := by
  refine ⟨?_, combineHash_comm hasher a b⟩
  rw [canonicalConcat_comm]

/-- C6: after `build(blocks)` on any tree, `root_hash()` is `None` exactly
when `blocks` was empty; in particular a build from zero blocks yields
`root_hash() = None` and `generate_proof(0) = None`. -/
theorem empty_blocks_root (t : MerkleTree) (blocks : List (List Nat)) :
    ((t.build blocks).root_hash = none ↔ blocks = []) ∧
    (t.build []).root_hash = none ∧
    (t.build []).generate_proof 0 = none := by
  refine ⟨?_, rfl, rfl⟩
  simp only [MerkleTree.build, MerkleTree.root_hash, buildLoop, Option.map_eq_none',
    List.head?_eq_none_iff]
  constructor
  · intro hnil
    by_contra hb
    have hmapne : (blocks.map t.hasher) ≠ [] := by simpa using hb
    have hne := buildHashGo_ne_nil t.hasher
      (blocks.map fun data => MerkleNode.mk (t.hasher data) none none).length
      (blocks.map t.hasher) hmapne
    apply hne
    have hmap : ((blocks.map fun data => MerkleNode.mk (t.hasher data) none none).map
        MerkleNode.hash) = blocks.map t.hasher := by
      simp [List.map_map, Function.comp, MerkleNode.hash]
    rw [← hmap, ← buildGo_map, hnil]
    rfl
  · intro hb
    subst hb
    rfl

/-- C8: `verify_proof` is a total function: for every leaf, every proof
(empty or with entries of arbitrary byte lengths) and every expected root it
returns a boolean — `false` exactly when the recomputed digest mismatches,
never a fault — and the borrowed tree is returned unchanged. -/
theorem verify_proof_total (t : MerkleTree) (leaf : List Nat)
    (proof : List (List Nat)) (expected_root : List Nat) :
    (t.verify_proofCall leaf proof expected_root).2 = t ∧
    ((t.verify_proofCall leaf proof expected_root).1 = false ↔
      proof.foldl (fun hash sibling_hash => combineHash t.hasher hash sibling_hash)
        (t.hasher leaf) ≠ expected_root) := by
  refine ⟨rfl, ?_⟩
  simp [MerkleTree.verify_proofCall, MerkleTree.verify_proof]

/-- C9: building from exactly one block yields the hasher's digest of that
block as the root (the lone leaf is not self-paired), an empty proof for
index 0, and successful verification of the block against the empty proof
and that root. -/
theorem single_block_tree (hasher : Hasher) (block : List Nat) :
    ((MerkleTree.new hasher).build [block]).root_hash = some (hasher block) ∧
    ((MerkleTree.new hasher).build [block]).generate_proof 0 = some [] ∧
    ((MerkleTree.new hasher).build [block]).verify_proof block [] (hasher block) = true := by
  refine ⟨rfl, rfl, ?_⟩
  simp [MerkleTree.verify_proof, MerkleTree.build, MerkleTree.new]

/-- C10: the result of `verify_proof` depends only on the injected hasher and
the three arguments, not on the tree's stored root or leaves: two trees with
the same hasher verify identically. -/
theorem verify_independent_of_state (t₁ t₂ : MerkleTree) (leaf : List Nat)
    (proof : List (List Nat)) (expected_root : List Nat)
    (hh : t₁.hasher = t₂.hasher) :
    t₁.verify_proof leaf proof expected_root = t₂.verify_proof leaf proof expected_root := by
  simp [MerkleTree.verify_proof, hh]

/-- Witness for C10: a freshly constructed tree and a tree built from one
block, both over SHA-256, agree on a concrete verification query. -/
theorem verify_independent_of_state_witness :
    (MerkleTree.new sha256).verify_proof [] [] []
      = ((MerkleTree.new sha256).build [[1]]).verify_proof [] [] [] :=
  verify_independent_of_state (MerkleTree.new sha256)
    ((MerkleTree.new sha256).build [[1]]) [] [] [] rfl

theorem levelEntry_eq_specEntry (ns : List (List Nat)) (idx : Nat) (h : idx < ns.length) :
    levelEntry ns idx = specEntry ns idx := by
  unfold levelEntry specEntry
  by_cases hp : idx % 2 = 0
  · simp only [hp, if_true]
    by_cases hnext : idx + 1 < ns.length
    · rw [if_pos hnext, if_neg (by omega)]
    · rw [if_neg hnext, if_pos (by omega)]
  · simp only [hp, if_false]
    rw [if_neg (by omega)]

theorem proofGo_eq_specGo (hasher : Hasher) :
    ∀ (fuel : Nat) (ns : List (List Nat)) (idx : Nat), idx < ns.length →
      proofGo hasher fuel ns idx = specSiblingsGo hasher fuel ns idx := by
  intro fuel
  induction fuel with
  | zero => intro ns idx h; rfl
  | succ f ih =>
    intro ns idx h
    simp only [proofGo, specSiblingsGo]
    by_cases hl : ns.length ≤ 1
    · simp [hl]
    · rw [if_neg hl, if_neg hl, levelEntry_eq_specEntry ns idx h]
      have hplen := pairHashes_length hasher ns
      have hlt : idx / 2 < (pairHashes hasher ns).length := by
        rw [hplen]; omega
      rw [ih (pairHashes hasher ns) (idx / 2) hlt]

/-- C7: `generate_proof(index)` returns `None` exactly when the index is out
of range for the current leaf set; otherwise it returns the sequence with one
sibling entry per level in leaf-to-root order, the sibling being `index + 1`
for an even index, `index - 1` for an odd index, the node's own digest when
it is the last node of an odd-sized level, with the index halved between
levels (`specSiblings` states this rule in the spec's words). -/
theorem generate_proof_spec (t : MerkleTree) (index : Nat) :
    t.generate_proof index =
      if t.leaves.length ≤ index then none
      else some (specSiblings t.hasher (t.leaves.map MerkleNode.hash) index) := by
  unfold MerkleTree.generate_proof specSiblings proofLoop
  by_cases h : t.leaves.length ≤ index
  · simp [h]
  · rw [if_neg h, if_neg h]
    rw [proofGo_eq_specGo t.hasher (t.leaves.map MerkleNode.hash).length
      (t.leaves.map MerkleNode.hash) index (by simpa using Nat.lt_of_not_le h)]

theorem toBytesBE_length : ∀ (n x : Nat), (toBytesBE n x).length = n := by
  intro n
  induction n with
  | zero => intro x; rfl
  | succ m ih =>
    intro x
    simp only [toBytesBE, List.length_append, List.length_singleton, ih]

theorem padZerosGo_eq (fuel : Nat) :
    ∀ (l : List Nat), (120 - l.length % 64) % 64 < fuel →
      padZerosGo fuel l = l ++ List.replicate ((120 - l.length % 64) % 64) 0 := by
  induction fuel with
  | zero => intro l h; omega
  | succ f ih =>
    intro l h
    simp only [padZerosGo]
    by_cases h56 : l.length % 64 = 56
    · have hz : (120 - l.length % 64) % 64 = 0 := by omega
      simp [h56, hz]
    · rw [if_neg h56]
      have hlen : (l ++ [0]).length = l.length + 1 := by simp
      have hd : (120 - (l ++ [0]).length % 64) % 64 = (120 - l.length % 64) % 64 - 1 := by
        rw [hlen]; omega
      have hdpos : 0 < (120 - l.length % 64) % 64 := by omega
      rw [ih (l ++ [0]) (by omega)]
      rw [hd, List.append_assoc]
      congr 1
      have : (120 - l.length % 64) % 64 = ((120 - l.length % 64) % 64 - 1) + 1 := by omega
      rw [this, List.replicate_succ]
      simp

/-- C5: for every input, the padded message is the original message, one
`0x80` byte, the minimal number `k` of zero bytes making the running bit
length congruent to 448 modulo 512, then the original bit length as a 64-bit
big-endian integer; the padded length is a multiple of 64 bytes. -/
theorem pad_message_spec (msg : List Nat) :
    ∃ k, pad_message msg
        = msg ++ 128 :: (List.replicate k 0
            ++ toBytesBE 8 ((msg.length * 8) % 18446744073709551616)) ∧
      ((msg.length + 1 + k) * 8) % 512 = 448 ∧
      (∀ j, ((msg.length + 1 + j) * 8) % 512 = 448 → k ≤ j) ∧
      (pad_message msg).length % 64 = 0 := by
  refine ⟨(120 - (msg.length + 1) % 64) % 64, ?_, by omega, by omega, ?_⟩
  · unfold pad_message padZerosLoop
    rw [padZerosGo_eq 64 (msg ++ [128]) (by simp; omega)]
    simp
  · unfold pad_message padZerosLoop
    rw [padZerosGo_eq 64 (msg ++ [128]) (by simp; omega)]
    simp only [List.length_append, List.length_singleton, List.length_replicate,
      toBytesBE_length]
    omega

set_option maxRecDepth 1000000

set_option maxHeartbeats 4000000

/-- C2 counterexample: the digest of the empty input does not equal the
63-hex-digit value the spec states (the spec's value drops the final digit). -/
theorem sha256_empty_hex_counterexample :
    bytes_to_hex (sha256 []) ≠
      "e3b0c44298fc1c149afbf4c8996fb92427ae41e4649b934ca495991b7852b85".data := by
  decide

/-- C2 (amended): the digest of the empty input is
`e3b0c44298fc1c149afbf4c8996fb92427ae41e4649b934ca495991b7852b855` (64 hex
digits), and `digest(b"abc")` matches the published FIPS 180-4 vector
bit-exactly. -/
theorem sha256_known_vectors :
    bytes_to_hex (sha256 []) =
      "e3b0c44298fc1c149afbf4c8996fb92427ae41e4649b934ca495991b7852b855".data ∧
    bytes_to_hex (sha256 [97, 98, 99]) =
      "ba7816bf8f01cfea414140de5dae2223b00361a396177a9cb410ff61f20015ad".data := by
  decide

/-- C3: in the concrete four-block scenario with the SHA-256 hasher, the leaf
digests are SHA-256 of the literal blocks, the root is SHA-256 of the
canonical concatenation of the two level-1 digests (each SHA-256 of the
canonical concatenation of its leaf pair), `generate_proof(0)` is exactly
`[leaf2 digest, level1_b digest]`, and verification of `b"block1"` against
that proof and root succeeds. -/
theorem concrete_scenario :
    scenarioTree.leaves.map MerkleNode.hash
        = [sha256 block1, sha256 block2, sha256 block3, sha256 block4] ∧
    scenarioTree.root_hash = some scenarioRoot ∧
    scenarioTree.generate_proof 0 = some [sha256 block2, level1B] ∧
    scenarioTree.verify_proof block1 [sha256 block2, level1B] scenarioRoot = true := by
  decide

end FsGuard

